import Mathlib

/-!
Verification of the agents-cli repository against its specification.

The definitions below are shallow embeddings of the TypeScript sources:
pure functions become Lean functions, filesystem state becomes explicit
state records, and JavaScript strings are modelled as Lean strings with
the relevant JavaScript string operations re-implemented over lists of
characters so that every definition is executable.
-/

/-! ## JavaScript string primitives used by the sources -/

/-- JavaScript s.split(c) for a single-character separator: always returns a
nonempty list of (possibly empty) fragments. -/
def splitOnChar (c : Char) : List Char → List (List Char)
  | [] => [[]]
  | x :: xs =>
    let r := splitOnChar c xs
    if x = c then [] :: r
    else
      match r with
      | h :: t => (x :: h) :: t
      | [] => [[x]]

/-- JavaScript s.toLowerCase() restricted to the ASCII range used by the CLI. -/
def jsToLower (l : List Char) : List Char := l.map Char.toLower

/-- Digit list to natural number, for the digit groups captured by regexes. -/
def digitsToNat (l : List Char) : Nat := l.foldl (fun n c => 10 * n + (c.toNat - 48)) 0

/-- JavaScript parseInt(s, 10) with the || 0 fallback used by compareVersions:
skip leading whitespace, read an optional sign and then a digit prefix; a string
with no leading digits (NaN) collapses to 0. -/
def jsParseIntOr0 (s : String) : Int :=
  let cs := s.data.dropWhile Char.isWhitespace
  match cs with
  | '-' :: r =>
    let digits := r.takeWhile Char.isDigit
    if digits = [] then 0 else -(digitsToNat digits : Int)
  | '+' :: r =>
    let digits := r.takeWhile Char.isDigit
    if digits = [] then 0 else (digitsToNat digits : Int)
  | r =>
    let digits := r.takeWhile Char.isDigit
    if digits = [] then 0 else (digitsToNat digits : Int)

/-- JavaScript s.endsWith(suffix), computed on reversed character lists. -/
def jsEndsWith (s suffix : String) : Bool :=
  List.isPrefixOf suffix.data.reverse s.data.reverse

/-- JavaScript s.slice(0, s.length - n) (drop the last n characters). -/
def jsDropRight (s : String) (n : Nat) : String :=
  String.mk ((s.data.reverse.drop n).reverse)

/-- JavaScript s.startsWith(prefixStr). -/
def jsStartsWith (s prefixStr : String) : Bool :=
  List.isPrefixOf prefixStr.data s.data

/-- JavaScript s.includes(sub) for a nonempty search string. -/
def jsIncludesList (sub : List Char) : List Char → Bool
  | [] => List.isPrefixOf sub []
  | x :: xs => List.isPrefixOf sub (x :: xs) || jsIncludesList sub xs

/-- JavaScript s.includes(sub). -/
def jsIncludes (s sub : String) : Bool := jsIncludesList sub.data s.data

/-- JavaScript s.slice(n) (drop the first n characters). -/
def jsDrop (s : String) (n : Nat) : String := String.mk (s.data.drop n)

/-! ## Version manager (src/lib/versions.ts)

The filesystem below versions/{agent}/ is modelled per agent as a list of
(version directory name, binary present) pairs, and the Meta document is
reduced to the field the claims touch: the global default version of the
agent. -/

/-- Numeric components of a version string: split on dots, each component
through parseInt(n, 10) || 0 (versions.ts compareVersions). -/
def versionParts (s : String) : List Int :=
  (splitOnChar '.' s.data).map (fun part => jsParseIntOr0 (String.mk part))

/-- The comparison loop of versions.ts compareVersions: walk the two component
lists padded with zeros and return the first nonzero difference. -/
def cmpParts : List Int → List Int → Int
  | [], [] => 0
  | [], b :: bs => if b ≠ 0 then -b else cmpParts [] bs
  | a :: as, [] => if a ≠ 0 then a else cmpParts as []
  | a :: as, b :: bs => if a ≠ b then a - b else cmpParts as bs
  termination_by a b => a.length + b.length

/-- versions.ts compareVersions(a, b): numeric dot-component comparator. -/
def compareVersions (a b : String) : Int :=
  cmpParts (versionParts a) (versionParts b)

/-- The ascending sort order induced by compareVersions (Array.prototype.sort
with a comparator sorts ascending on its sign). -/
def versionLE (a b : String) : Prop := compareVersions a b ≤ 0

instance : DecidableRel versionLE :=
  fun a b => show Decidable (compareVersions a b ≤ 0) from inferInstance

theorem cmpParts_nil_anti (a : List Int) : cmpParts a [] = -cmpParts [] a := by
  induction a with
  | nil => simp [cmpParts]
  | cons x xs ih =>
    simp only [cmpParts]
    split_ifs with hx
    · omega
    · omega

theorem cmpParts_neg (a b : List Int) : cmpParts a b = -cmpParts b a := by
  induction a generalizing b with
  | nil =>
    have h := cmpParts_nil_anti b
    omega
  | cons x xs ih =>
    cases b with
    | nil =>
      have h := cmpParts_nil_anti (x :: xs)
      omega
    | cons y ys =>
      simp only [cmpParts]
      by_cases hxy : x = y
      · subst hxy
        simp [ih ys]
      · have hyx : ¬ y = x := fun h => hxy h.symm
        simp only [hxy, hyx, ne_eq, not_false_eq_true, if_true]
        omega

theorem cmpParts_self (a : List Int) : cmpParts a a = 0 := by
  induction a with
  | nil => simp [cmpParts]
  | cons x xs ih => simp [cmpParts, ih]

theorem cmpParts_nil_trans (b c : List Int)
    (h1 : cmpParts [] b ≤ 0) (h2 : cmpParts b c ≤ 0) : cmpParts [] c ≤ 0 := by
  induction b generalizing c with
  | nil => exact h2
  | cons y ys ih =>
    cases c with
    | nil => simp [cmpParts]
    | cons z zs =>
      simp only [cmpParts] at h1 h2 ⊢
      split_ifs at h1 h2 ⊢ <;>
        first
          | omega
          | (exfalso; omega)
          | exact ih zs h1 h2

theorem cmpParts_trans (a b c : List Int)
    (h1 : cmpParts a b ≤ 0) (h2 : cmpParts b c ≤ 0) : cmpParts a c ≤ 0 := by
  induction a generalizing b c with
  | nil => exact cmpParts_nil_trans b c h1 h2
  | cons x xs ih =>
    cases b with
    | nil =>
      cases c with
      | nil => exact h1
      | cons z zs =>
        simp only [cmpParts] at h1 h2 ⊢
        split_ifs at h1 h2 ⊢ <;>
          first
            | omega
            | (exfalso; omega)
            | exact ih [] zs h1 h2
    | cons y ys =>
      cases c with
      | nil =>
        simp only [cmpParts] at h1 h2 ⊢
        split_ifs at h1 h2 ⊢ <;>
          first
            | omega
            | (exfalso; omega)
            | exact ih ys [] h1 h2
      | cons z zs =>
        simp only [cmpParts] at h1 h2 ⊢
        split_ifs at h1 h2 ⊢ <;>
          first
            | omega
            | (exfalso; omega)
            | exact ih ys zs h1 h2

instance : IsTrans String versionLE :=
  ⟨fun a b c h1 h2 => cmpParts_trans _ _ _ h1 h2⟩

instance : IsTotal String versionLE := by
  refine ⟨fun a b => ?_⟩
  have h := cmpParts_neg (versionParts a) (versionParts b)
  unfold versionLE compareVersions
  omega

/-- State of versions/{agent}/ on disk: one entry per version directory, with
a flag recording whether the expected binary path below it exists. -/
structure VersionsFs where
  entries : List (String × Bool)
deriving DecidableEq

/-- fs.existsSync on the version directory (versions.ts getVersionDir). -/
def dirExists (fs : VersionsFs) (v : String) : Bool :=
  fs.entries.any (fun e => e.1 = v)

/-- versions.ts isVersionInstalled: the expected binary path exists. -/
def isVersionInstalled (fs : VersionsFs) (v : String) : Bool :=
  fs.entries.any (fun e => e.1 = v && e.2)

/-- versions.ts listInstalledVersions: the subdirectories whose binary exists,
sorted ascending by compareVersions. -/
def listInstalledVersions (fs : VersionsFs) : List String :=
  List.insertionSort versionLE ((fs.entries.filter (fun e => e.2)).map (fun e => e.1))

/-- Per-agent state relevant to removeVersion: the versions directory tree and
the global default recorded in the Meta document (meta.agents[agent]). -/
structure VersionState where
  fs : VersionsFs
  globalDefault : Option String
deriving DecidableEq

/-- Effect of fs.rmSync(versionDir, recursive) on the versions tree: the
entry for the removed version directory disappears. -/
def removeEntries (entries : List (String × Bool)) (version : String) : List (String × Bool) :=
  entries.filter (fun e => ¬ e.1 = version)

/-- versions.ts removeVersion: no directory means return false unchanged;
otherwise remove the directory, and when the removed version was the global
default either promote the highest remaining installed version or clear the
default. -/
def removeVersion (st : VersionState) (version : String) : Bool × VersionState :=
  if dirExists st.fs version then
    let fs' : VersionsFs := ⟨removeEntries st.fs.entries version⟩
    if st.globalDefault = some version then
      match (listInstalledVersions fs').getLast? with
      | some newDefault => (true, ⟨fs', some newDefault⟩)
      | none => (true, ⟨fs', none⟩)
    else (true, ⟨fs', st.globalDefault⟩)
  else (false, st)

/-! ## parseAgentSpec (src/lib/versions.ts) -/

/-- Result of parsing an agent@version spec. -/
structure AgentSpec where
  agent : String
  version : String
deriving DecidableEq

/-- Modelled from the spec: the key set of the AGENTS record (the agents.ts
module itself is not in the tree); the spec and the AgentId union in
src/lib/types.ts fix it to the closed set of five known agent kinds. -/
def agentIds : List String := ["claude", "codex", "gemini", "cursor", "opencode"]

/-- The agent part of an agent@version spec: parts[0].toLowerCase(). -/
def agentNamePart (spec : String) : String :=
  String.mk (jsToLower ((splitOnChar '@' spec.data).headD []))

/-- The version part of an agent@version spec: parts[1] || latest (both a
missing element and an empty fragment are falsy). -/
def versionPart (spec : String) : String :=
  match (splitOnChar '@' spec.data)[1]? with
  | some v => if v = [] then "latest" else String.mk v
  | none => "latest"

/-- versions.ts parseAgentSpec: split on the at sign, lowercase the agent
part, default a missing or empty version to latest, reject unknown agents. -/
def parseAgentSpec (spec : String) : Option AgentSpec :=
  if agentIds.contains (agentNamePart spec) then
    some ⟨agentNamePart spec, versionPart spec⟩
  else none

/-! ## Lemmas about listInstalledVersions -/

theorem versionLE_refl (a : String) : versionLE a a := by
  unfold versionLE compareVersions
  rw [cmpParts_self]

theorem mem_listInstalled_isInstalled (fs : VersionsFs) (w : String)
    (hw : w ∈ listInstalledVersions fs) : isVersionInstalled fs w = true := by
  unfold listInstalledVersions at hw
  have hmem := (List.perm_insertionSort versionLE
    ((fs.entries.filter (fun e => e.2)).map (fun e => e.1))).mem_iff.mp hw
  obtain ⟨e, hef, hew⟩ := List.mem_map.mp hmem
  obtain ⟨hent, hb⟩ := List.mem_filter.mp hef
  unfold isVersionInstalled
  rw [List.any_eq_true]
  exact ⟨e, hent, by simp [hew, hb]⟩

theorem getLast_listInstalled_greatest (fs : VersionsFs) (nd : String)
    (h : (listInstalledVersions fs).getLast? = some nd) :
    ∀ w ∈ listInstalledVersions fs, versionLE w nd := by
  intro w hw
  obtain ⟨ys, hys⟩ := List.getLast?_eq_some_iff.mp h
  have hsorted : List.Sorted versionLE (listInstalledVersions fs) :=
    List.sorted_insertionSort versionLE _
  rw [hys] at hsorted hw
  rcases List.mem_append.mp hw with hwy | hwn
  · have := (List.pairwise_append.mp hsorted).2.2 w hwy nd (by simp)
    exact this
  · have : w = nd := by simpa using hwn
    rw [this]
    exact versionLE_refl nd

theorem installed_dirExists (fs : VersionsFs) (v : String)
    (h : isVersionInstalled fs v = true) : dirExists fs v = true := by
  unfold isVersionInstalled at h
  unfold dirExists
  rw [List.any_eq_true] at h ⊢
  obtain ⟨e, hent, he⟩ := h
  refine ⟨e, hent, ?_⟩
  simp only [Bool.and_eq_true, decide_eq_true_eq] at he
  simp [he.1]

/-- C5: across remove_version, a global default that referred to an installed
version keeps referring to an installed version (re-selecting the highest
remaining installed version when the default itself was removed), or is
cleared exactly when no installed versions remain. -/
theorem removeVersion_preserves_default (st : VersionState) (v d : String)
    (hdef : st.globalDefault = some d)
    (hinst : isVersionInstalled st.fs d = true) :
    (∃ d', ((removeVersion st v).2).globalDefault = some d' ∧
        isVersionInstalled ((removeVersion st v).2).fs d' = true ∧
        (st.globalDefault = some v →
          ∀ w ∈ listInstalledVersions ((removeVersion st v).2).fs, versionLE w d')) ∨
      (((removeVersion st v).2).globalDefault = none ∧
        listInstalledVersions ((removeVersion st v).2).fs = []) := by
  by_cases hd : dirExists st.fs v = true
  · by_cases hdv : st.globalDefault = some v
    · cases hl : (listInstalledVersions ⟨removeEntries st.fs.entries v⟩).getLast? with
      | some nd =>
        left
        refine ⟨nd, ?_, ?_, ?_⟩
        · simp [removeVersion, hd, hdv, hl]
        · have hmem : nd ∈ listInstalledVersions ⟨removeEntries st.fs.entries v⟩ := by
            obtain ⟨ys, hys⟩ := List.getLast?_eq_some_iff.mp hl
            rw [hys]
            simp
          have := mem_listInstalled_isInstalled _ nd hmem
          simpa [removeVersion, hd, hdv, hl] using this
        · intro _ w hw
          have hw2 : w ∈ listInstalledVersions ⟨removeEntries st.fs.entries v⟩ := by
            simpa [removeVersion, hd, hdv, hl] using hw
          exact getLast_listInstalled_greatest _ nd hl w hw2
      | none =>
        right
        constructor
        · simp [removeVersion, hd, hdv, hl]
        · have : listInstalledVersions ⟨removeEntries st.fs.entries v⟩ = [] :=
            List.getLast?_eq_none_iff.mp hl
          simpa [removeVersion, hd, hdv, hl] using this
    · left
      refine ⟨d, ?_, ?_, ?_⟩
      · have hdne0 : ¬ d = v := fun h => hdv (h ▸ hdef)
        simp [removeVersion, hd, hdv, hdef, hdne0]
      · have hdne : ¬ d = v := by
          intro h
          exact hdv (h ▸ hdef)
        unfold isVersionInstalled at hinst
        rw [List.any_eq_true] at hinst
        obtain ⟨e, hent, he⟩ := hinst
        simp only [Bool.and_eq_true, decide_eq_true_eq] at he
        have hsurv : e ∈ removeEntries st.fs.entries v := by
          unfold removeEntries
          rw [List.mem_filter]
          refine ⟨hent, ?_⟩
          simp [he.1, hdne]
        simp only [removeVersion, hd, hdv, if_true, if_false]
        unfold isVersionInstalled
        rw [List.any_eq_true]
        refine ⟨e, ?_, ?_⟩
        · simpa using hsurv
        · simp [he.1, he.2]
      · intro hcontra
        exact absurd hcontra hdv
  · left
    refine ⟨d, ?_, ?_, ?_⟩
    · simp [removeVersion, hd, hdef]
    · simpa [removeVersion, hd] using hinst
    · intro hdv
      exfalso
      have : d = v := by
        rw [hdef] at hdv
        exact (Option.some_injective _ hdv.symm).symm
      exact hd (this ▸ installed_dirExists st.fs d hinst)

/-- Witness for C5 at a concrete two-version store. -/
theorem removeVersion_preserves_default_witness :
    (VersionState.mk ⟨[("1.0.0", true), ("1.1.0", true)]⟩
        (some "1.1.0")).globalDefault = some "1.1.0" ∧
    isVersionInstalled (VersionState.mk ⟨[("1.0.0", true), ("1.1.0", true)]⟩
        (some "1.1.0")).fs "1.1.0" = true ∧
    ((∃ d', ((removeVersion (VersionState.mk ⟨[("1.0.0", true), ("1.1.0", true)]⟩
          (some "1.1.0")) "1.1.0").2).globalDefault = some d' ∧
        isVersionInstalled ((removeVersion (VersionState.mk
          ⟨[("1.0.0", true), ("1.1.0", true)]⟩ (some "1.1.0")) "1.1.0").2).fs d' = true ∧
        ((VersionState.mk ⟨[("1.0.0", true), ("1.1.0", true)]⟩
            (some "1.1.0")).globalDefault = some "1.1.0" →
          ∀ w ∈ listInstalledVersions ((removeVersion (VersionState.mk
            ⟨[("1.0.0", true), ("1.1.0", true)]⟩ (some "1.1.0")) "1.1.0").2).fs,
            versionLE w d')) ∨
      (((removeVersion (VersionState.mk ⟨[("1.0.0", true), ("1.1.0", true)]⟩
          (some "1.1.0")) "1.1.0").2).globalDefault = none ∧
        listInstalledVersions ((removeVersion (VersionState.mk
          ⟨[("1.0.0", true), ("1.1.0", true)]⟩ (some "1.1.0")) "1.1.0").2).fs = [])) :=
  ⟨rfl, by decide,
    removeVersion_preserves_default _ "1.1.0" "1.1.0" rfl (by decide)⟩

/-- C10: removing a version whose directory does not exist returns false and
leaves the whole state (versions tree and Meta global default) unchanged. -/
theorem removeVersion_missing_noop (st : VersionState) (v : String)
    (h : dirExists st.fs v = false) : removeVersion st v = (false, st) := by
  simp [removeVersion, h]

/-- Witness for C10 at a concrete store without the requested version. -/
theorem removeVersion_missing_noop_witness :
    dirExists (VersionState.mk ⟨[("1.0.0", true)]⟩ (some "1.0.0")).fs "2.0.0" = false ∧
    removeVersion (VersionState.mk ⟨[("1.0.0", true)]⟩ (some "1.0.0")) "2.0.0" =
      (false, VersionState.mk ⟨[("1.0.0", true)]⟩ (some "1.0.0")) :=
  ⟨by decide, removeVersion_missing_noop _ "2.0.0" (by decide)⟩

/-- C9: parseAgentSpec lowercases the agent part, defaults a missing or empty
version to latest, and returns none whenever the lowercased agent part is not
a known agent id. -/
theorem parseAgentSpec_spec :
    (parseAgentSpec "CLAUDE@1.0.0" = parseAgentSpec "claude@1.0.0" ∧
      parseAgentSpec "claude@1.0.0" = some ⟨"claude", "1.0.0"⟩) ∧
    parseAgentSpec "claude" = some ⟨"claude", "latest"⟩ ∧
    parseAgentSpec "claude@" = some ⟨"claude", "latest"⟩ ∧
    ∀ s : String, agentNamePart s ∉ agentIds → parseAgentSpec s = none := by
  refine ⟨⟨by decide, by decide⟩, by decide, by decide, ?_⟩
  intro s hs
  unfold parseAgentSpec
  rw [if_neg]
  simp [hs]

/-- Witness for C9 on an unknown agent name. -/
theorem parseAgentSpec_spec_witness :
    agentNamePart "copilot@2" ∉ agentIds ∧ parseAgentSpec "copilot@2" = none :=
  ⟨by decide, parseAgentSpec_spec.2.2.2 "copilot@2" (by decide)⟩

/-! ## Job specs (src/lib/jobs.ts)

YAML documents are modelled structurally: a job file is the record of
optional fields that yaml.stringify would emit and yaml.parse would read
back, so serialization round trips are the identity on the record. The
free-form config map is modelled with string values. -/

/-- The allow block of a job spec. -/
structure JobAllow where
  tools : Option (List String)
  sites : Option (List String)
  dirs : Option (List String)
deriving DecidableEq

/-- A job YAML document: every field may be absent. -/
structure JobYaml where
  name : Option String
  schedule : Option String
  agent : Option String
  mode : Option String
  effort : Option String
  timeout : Option String
  enabled : Option Bool
  prompt : Option String
  allow : Option JobAllow
  config : Option (List (String × String))
  version : Option String
deriving DecidableEq

/-- An in-memory JobConfig as produced by readJobFile: the four defaulted
fields are always present, the rest mirror the unchecked TypeScript cast and
stay optional. -/
structure JobConfig where
  name : String
  schedule : Option String
  agent : Option String
  mode : String
  effort : String
  timeout : String
  enabled : Bool
  prompt : Option String
  allow : Option JobAllow
  config : Option (List (String × String))
  version : Option String
deriving DecidableEq

/-- jobs.ts readJobFile: spread JOB_DEFAULTS, then the parsed document, then
replace a falsy name by the file basename without its yaml extension. -/
def readJobFile (doc : JobYaml) (fallbackName : String) : JobConfig :=
  { name :=
      match doc.name with
      | some n => if n = "" then fallbackName else n
      | none => fallbackName
    schedule := doc.schedule
    agent := doc.agent
    mode := doc.mode.getD "plan"
    effort := doc.effort.getD "default"
    timeout := doc.timeout.getD "30m"
    enabled := doc.enabled.getD true
    prompt := doc.prompt
    allow := doc.allow
    config := doc.config
    version := doc.version }

/-- jobs.ts writeJob, document part: copy the config and delete the fields
that hold their default value before stringifying. -/
def writeJobDoc (c : JobConfig) : JobYaml :=
  { name := some c.name
    schedule := c.schedule
    agent := c.agent
    mode := if c.mode = "plan" then none else some c.mode
    effort := if c.effort = "default" then none else some c.effort
    timeout := if c.timeout = "30m" then none else some c.timeout
    enabled := if c.enabled = true then none else some c.enabled
    prompt := c.prompt
    allow := c.allow
    config := c.config
    version := c.version }

/-- The jobs directory as a flat map from file name to document. -/
def lookupFile (store : List (String × JobYaml)) (fname : String) : Option JobYaml :=
  (store.find? (fun e => e.1 = fname)).map (fun e => e.2)

/-- jobs.ts writeJob: write the trimmed document to name + .yml. -/
def writeJob (store : List (String × JobYaml)) (c : JobConfig) : List (String × JobYaml) :=
  (c.name ++ ".yml", writeJobDoc c) :: store.filter (fun e => ¬ e.1 = c.name ++ ".yml")

/-- The basename transform of readJobFile: strip a final .yaml or .yml. -/
def stripYamlExt (s : String) : String :=
  if jsEndsWith s ".yaml" then jsDropRight s 5
  else if jsEndsWith s ".yml" then jsDropRight s 4
  else s

/-- jobs.ts readJob: try name.yml then name.yaml, parsing whichever exists. -/
def readJob (store : List (String × JobYaml)) (name : String) : Option JobConfig :=
  match lookupFile store (name ++ ".yml") with
  | some doc => some (readJobFile doc (stripYamlExt (name ++ ".yml")))
  | none =>
    match lookupFile store (name ++ ".yaml") with
    | some doc => some (readJobFile doc (stripYamlExt (name ++ ".yaml")))
    | none => none

/-! ## Timeout parsing and validation (src/lib/jobs.ts) -/

/-- The regex (?:(\d+)h)?(?:(\d+)m)?$ anchored on both sides: returns the
captured (hours, minutes) groups when the whole string matches. -/
def timeoutMatch (cs : List Char) : Option (Nat × Nat) :=
  let d1 := cs.takeWhile Char.isDigit
  let r1 := cs.dropWhile Char.isDigit
  match r1 with
  | 'h' :: r2 =>
    if d1 = [] then none
    else
      let d2 := r2.takeWhile Char.isDigit
      let r3 := r2.dropWhile Char.isDigit
      match r3 with
      | 'm' :: r4 => if d2 = [] then none else if r4 = [] then some (digitsToNat d1, digitsToNat d2) else none
      | [] => if d2 = [] then some (digitsToNat d1, 0) else none
      | _ => none
  | 'm' :: r2 => if d1 = [] then none else if r2 = [] then some (0, digitsToNat d1) else none
  | [] => if d1 = [] then some (0, 0) else none
  | _ => none

/-- jobs.ts parseTimeout: milliseconds from NhNm, rejecting a zero total. -/
def parseTimeout (timeout : String) : Option Nat :=
  match timeoutMatch timeout.data with
  | none => none
  | some (h, m) =>
    let ms := (h * 60 + m) * 60 * 1000
    if ms > 0 then some ms else none

/-- Partial job fields as validateJob receives them. -/
structure JobDraft where
  name : Option String
  schedule : Option String
  agent : Option String
  mode : Option String
  effort : Option String
  timeout : Option String
  prompt : Option String
deriving DecidableEq

/-- JavaScript truthiness of an optional string field. -/
def truthy : Option String → Bool
  | some s => s ≠ ""
  | none => false

/-- The value of an optional string field after a truthiness guard. -/
def optStr (o : Option String) : String := o.getD ""

/-- The closed agent list accepted by jobs.ts validateJob. -/
def validAgents : List String := ["claude", "codex", "gemini", "cursor", "opencode"]

/-- jobs.ts validateJob: sequentially pushed error messages. -/
def validateJob (c : JobDraft) : List String :=
  let errors : List String := []
  let errors := if ¬ truthy c.name then errors ++ ["name is required"] else errors
  let errors := if ¬ truthy c.schedule then errors ++ ["schedule (cron expression) is required"] else errors
  let errors := if ¬ truthy c.agent then errors ++ ["agent is required"] else errors
  let errors :=
    if truthy c.agent ∧ ¬ validAgents.contains (optStr c.agent) then
      errors ++ ["agent must be one of: " ++ String.intercalate ", " validAgents]
    else errors
  let errors :=
    if truthy c.mode ∧ ¬ (["plan", "edit"].contains (optStr c.mode)) then
      errors ++ ["mode must be plan or edit"]
    else errors
  let errors :=
    if truthy c.effort ∧ ¬ (["fast", "default", "detailed"].contains (optStr c.effort)) then
      errors ++ ["effort must be fast, default, or detailed"]
    else errors
  let errors := if ¬ truthy c.prompt then errors ++ ["prompt is required"] else errors
  let errors :=
    if truthy c.timeout ∧ parseTimeout (optStr c.timeout) = none then
      errors ++ ["timeout must be like 30m, 2h, 1h30m"]
    else errors
  errors

/-- The fields of a JobConfig as seen by validateJob. -/
def jobConfigToDraft (c : JobConfig) : JobDraft :=
  { name := some c.name
    schedule := c.schedule
    agent := c.agent
    mode := some c.mode
    effort := some c.effort
    timeout := some c.timeout
    prompt := c.prompt }

/-- Result of jobs.ts installJobFromSource. -/
structure InstallResult where
  success : Bool
  error : Option String
  store : List (String × JobYaml)
deriving DecidableEq

/-- jobs.ts installJobFromSource: parse the YAML (none is a parse failure),
apply defaults, validate, and either reject with the joined errors or write
the job. -/
def installJobFromSource (store : List (String × JobYaml)) (parsed : Option JobYaml)
    (name : String) : InstallResult :=
  match parsed with
  | none => ⟨false, some "Invalid YAML", store⟩
  | some doc =>
    let config := readJobFile doc name
    let errors := validateJob (jobConfigToDraft config)
    if errors = [] then ⟨true, none, writeJob store config⟩
    else ⟨false, some (String.intercalate ", " errors), store⟩

/-! ## Validation decomposition lemmas -/

/-- The name check of validateJob in isolation. -/
def nameErrors (c : JobDraft) : List String :=
  if ¬ truthy c.name then ["name is required"] else []

/-- The schedule check of validateJob in isolation. -/
def scheduleErrors (c : JobDraft) : List String :=
  if ¬ truthy c.schedule then ["schedule (cron expression) is required"] else []

/-- The agent presence check of validateJob in isolation. -/
def agentRequiredErrors (c : JobDraft) : List String :=
  if ¬ truthy c.agent then ["agent is required"] else []

/-- The agent membership check of validateJob in isolation. -/
def agentSetErrors (c : JobDraft) : List String :=
  if truthy c.agent ∧ ¬ validAgents.contains (optStr c.agent) then
    ["agent must be one of: " ++ String.intercalate ", " validAgents]
  else []

/-- The mode check of validateJob in isolation. -/
def modeErrors (c : JobDraft) : List String :=
  if truthy c.mode ∧ ¬ (["plan", "edit"].contains (optStr c.mode)) then
    ["mode must be plan or edit"]
  else []

/-- The effort check of validateJob in isolation. -/
def effortErrors (c : JobDraft) : List String :=
  if truthy c.effort ∧ ¬ (["fast", "default", "detailed"].contains (optStr c.effort)) then
    ["effort must be fast, default, or detailed"]
  else []

/-- The prompt check of validateJob in isolation. -/
def promptErrors (c : JobDraft) : List String :=
  if ¬ truthy c.prompt then ["prompt is required"] else []

/-- The timeout check of validateJob in isolation. -/
def timeoutErrors (c : JobDraft) : List String :=
  if truthy c.timeout ∧ parseTimeout (optStr c.timeout) = none then
    ["timeout must be like 30m, 2h, 1h30m"]
  else []

theorem ite_append_push (b : Prop) [Decidable b] (l m : List String) :
    (if b then l ++ m else l) = l ++ (if b then m else []) := by
  split_ifs <;> simp

theorem validateJob_eq_checks (c : JobDraft) :
    validateJob c =
      nameErrors c ++ scheduleErrors c ++ agentRequiredErrors c ++ agentSetErrors c ++
        modeErrors c ++ effortErrors c ++ promptErrors c ++ timeoutErrors c := by
  unfold validateJob nameErrors scheduleErrors agentRequiredErrors agentSetErrors
    modeErrors effortErrors promptErrors timeoutErrors
  simp only [ite_append_push]
  simp [List.append_assoc]

theorem agentMsg_not_in_nameErrors (c : JobDraft) :
    "agent must be one of: claude, codex, gemini, cursor, opencode" ∉ nameErrors c := by
  unfold nameErrors
  split_ifs <;> simp

theorem agentMsg_not_in_scheduleErrors (c : JobDraft) :
    "agent must be one of: claude, codex, gemini, cursor, opencode" ∉ scheduleErrors c := by
  unfold scheduleErrors
  split_ifs <;> simp

theorem agentMsg_not_in_agentRequiredErrors (c : JobDraft) :
    "agent must be one of: claude, codex, gemini, cursor, opencode" ∉ agentRequiredErrors c := by
  unfold agentRequiredErrors
  split_ifs <;> simp

theorem agentMsg_not_in_modeErrors (c : JobDraft) :
    "agent must be one of: claude, codex, gemini, cursor, opencode" ∉ modeErrors c := by
  unfold modeErrors
  split_ifs <;> simp

theorem agentMsg_not_in_effortErrors (c : JobDraft) :
    "agent must be one of: claude, codex, gemini, cursor, opencode" ∉ effortErrors c := by
  unfold effortErrors
  split_ifs <;> simp

theorem agentMsg_not_in_promptErrors (c : JobDraft) :
    "agent must be one of: claude, codex, gemini, cursor, opencode" ∉ promptErrors c := by
  unfold promptErrors
  split_ifs <;> simp

theorem agentMsg_not_in_timeoutErrors (c : JobDraft) :
    "agent must be one of: claude, codex, gemini, cursor, opencode" ∉ timeoutErrors c := by
  unfold timeoutErrors
  split_ifs <;> simp

theorem agentMsg_mem_agentSetErrors (c : JobDraft) :
    "agent must be one of: claude, codex, gemini, cursor, opencode" ∈ agentSetErrors c ↔
      (truthy c.agent = true ∧ validAgents.contains (optStr c.agent) = false) := by
  unfold agentSetErrors
  split_ifs with h
  · simp only [List.mem_singleton]
    constructor
    · intro _
      exact ⟨h.1, by simpa using h.2⟩
    · intro _
      decide
  · simp only [List.not_mem_nil, false_iff]
    intro hc
    have hne : validAgents.contains (optStr c.agent) ≠ true := by
      rw [hc.2]
      simp
    exact h ⟨hc.1, hne⟩

/-- C4 counterexample: a fully valid job whose agent is cursor produces no
validation error at all, although cursor is outside {claude, codex, gemini}. -/
theorem validateJob_cursor_counterexample :
    validateJob ⟨some "test-job", some "0 9 * * *", some "cursor", some "plan",
      some "default", some "30m", some "do something"⟩ = [] ∧
    "cursor" ∈ validAgents ∧ "cursor" ∉ ["claude", "codex", "gemini"] := by
  refine ⟨by decide, by decide, by decide⟩

/-- C4 (amended): validation accumulates all errors (it is the concatenation
of the eight independent field checks), the agent error fires exactly when the
agent is present and outside the closed five-agent set {claude, codex, gemini,
cursor, opencode}, and installJobFromSource writes the job exactly when the
parsed document validates with no error. -/
theorem validateJob_accumulates (c : JobDraft) :
    (validateJob c =
      nameErrors c ++ scheduleErrors c ++ agentRequiredErrors c ++ agentSetErrors c ++
        modeErrors c ++ effortErrors c ++ promptErrors c ++ timeoutErrors c) ∧
    ("agent must be one of: claude, codex, gemini, cursor, opencode" ∈ validateJob c ↔
      (truthy c.agent = true ∧ validAgents.contains (optStr c.agent) = false)) ∧
    (∀ (store : List (String × JobYaml)) (parsed : Option JobYaml) (nm : String),
      (installJobFromSource store parsed nm).success = true ↔
        ∃ doc, parsed = some doc ∧
          validateJob (jobConfigToDraft (readJobFile doc nm)) = []) := by
  refine ⟨validateJob_eq_checks c, ?_, ?_⟩
  · rw [validateJob_eq_checks c]
    simp only [List.mem_append]
    rw [agentMsg_mem_agentSetErrors]
    have h1 := agentMsg_not_in_nameErrors c
    have h2 := agentMsg_not_in_scheduleErrors c
    have h3 := agentMsg_not_in_agentRequiredErrors c
    have h4 := agentMsg_not_in_modeErrors c
    have h5 := agentMsg_not_in_effortErrors c
    have h6 := agentMsg_not_in_promptErrors c
    have h7 := agentMsg_not_in_timeoutErrors c
    tauto
  · intro store parsed nm
    cases parsed with
    | none => simp [installJobFromSource]
    | some doc =>
      simp only [installJobFromSource]
      split_ifs with h
      · simp [h]
      · simp [h]

/-- Witness for C4 (amended) at a concrete invalid agent. -/
theorem validateJob_accumulates_witness :
    "agent must be one of: claude, codex, gemini, cursor, opencode" ∈
      validateJob ⟨some "test-job", some "0 9 * * *", some "invalid-agent", some "plan",
        some "default", some "30m", some "do something"⟩ :=
  ((validateJob_accumulates ⟨some "test-job", some "0 9 * * *", some "invalid-agent",
      some "plan", some "default", some "30m", some "do something"⟩).2.1).mpr
    ⟨by decide, by decide⟩

/-! ## Round trip of writeJob and readJob -/

theorem stringMk_data (s : String) : String.mk s.data = s := by
  cases s
  rfl

theorem stringData_append (s t : String) : (s ++ t).data = s.data ++ t.data := by
  cases s
  cases t
  rfl

theorem stripYamlExt_append_yml (s : String) : stripYamlExt (s ++ ".yml") = s := by
  unfold stripYamlExt
  have hyaml : jsEndsWith (s ++ ".yml") ".yaml" = false := by
    unfold jsEndsWith
    rw [stringData_append]
    rw [List.reverse_append]
    simp [List.isPrefixOf]
  have hyml : jsEndsWith (s ++ ".yml") ".yml" = true := by
    unfold jsEndsWith
    rw [stringData_append]
    rw [List.reverse_append]
    simp [List.isPrefixOf]
  rw [hyaml, hyml]
  simp only [Bool.false_eq_true, if_false, if_true]
  unfold jsDropRight
  rw [stringData_append, List.reverse_append]
  show String.mk ((List.drop 4 (['l', 'm', 'y', '.'] ++ s.data.reverse)).reverse) = s
  rw [show List.drop 4 (['l', 'm', 'y', '.'] ++ s.data.reverse) = s.data.reverse by simp]
  rw [List.reverse_reverse]

theorem ite_none_getD (x d : String) :
    (if x = d then (none : Option String) else some x).getD d = x := by
  by_cases h : x = d <;> simp [h]

theorem ite_none_getD_bool (b : Bool) :
    (if b = true then (none : Option Bool) else some b).getD true = b := by
  cases b <;> simp

theorem readJobFile_writeJobDoc (c : JobConfig) (fallback : String) (hname : c.name ≠ "") :
    readJobFile (writeJobDoc c) fallback = c := by
  unfold readJobFile writeJobDoc
  simp only [ite_none_getD, ite_none_getD_bool]
  simp [hname]

/-- C7: a JobSpec that passes validation survives writeJob followed by readJob
unchanged, and the written document omits exactly the fields holding their
default values (mode plan, effort default, timeout 30m, enabled true). -/
theorem readJob_writeJob_roundtrip (store : List (String × JobYaml)) (c : JobConfig)
    (hv : validateJob (jobConfigToDraft c) = []) :
    readJob (writeJob store c) c.name = some c ∧
    ((writeJobDoc c).mode = none ↔ c.mode = "plan") ∧
    ((writeJobDoc c).effort = none ↔ c.effort = "default") ∧
    ((writeJobDoc c).timeout = none ↔ c.timeout = "30m") ∧
    ((writeJobDoc c).enabled = none ↔ c.enabled = true) := by
  have hname : c.name ≠ "" := by
    intro h0
    rw [validateJob_eq_checks] at hv
    have hn : nameErrors (jobConfigToDraft c) = [] := by
      cases hx : nameErrors (jobConfigToDraft c) with
      | nil => rfl
      | cons a l =>
        rw [hx] at hv
        simp at hv
    unfold nameErrors at hn
    rw [if_pos] at hn
    · exact absurd hn (by simp)
    · simp [jobConfigToDraft, truthy, h0]
  refine ⟨?_, ?_, ?_, ?_, ?_⟩
  · unfold readJob writeJob lookupFile
    rw [List.find?_cons_of_pos _ (by simp)]
    simp only [Option.map_some']
    rw [stripYamlExt_append_yml]
    rw [readJobFile_writeJobDoc c c.name hname]
  · unfold writeJobDoc
    by_cases h : c.mode = "plan" <;> simp [h]
  · unfold writeJobDoc
    by_cases h : c.effort = "default" <;> simp [h]
  · unfold writeJobDoc
    by_cases h : c.timeout = "30m" <;> simp [h]
  · unfold writeJobDoc
    cases h : c.enabled <;> simp

/-- Witness for C7 at a concrete valid job. -/
theorem readJob_writeJob_roundtrip_witness :
    validateJob (jobConfigToDraft (JobConfig.mk "daily" (some "0 9 * * *") (some "claude")
      "plan" "default" "30m" true (some "say hi") none none none)) = [] ∧
    readJob (writeJob [] (JobConfig.mk "daily" (some "0 9 * * *") (some "claude")
        "plan" "default" "30m" true (some "say hi") none none none)) "daily" =
      some (JobConfig.mk "daily" (some "0 9 * * *") (some "claude")
        "plan" "default" "30m" true (some "say hi") none none none) :=
  ⟨by decide,
    (readJob_writeJob_roundtrip [] (JobConfig.mk "daily" (some "0 9 * * *") (some "claude")
      "plan" "default" "30m" true (some "say hi") none none none) (by decide)).1⟩

/-! ## Spawn environment of job execution (src/lib/runner.ts)

executeJob and executeJobDetached both build the child environment as the
spread of the whole parent process environment with only HOME replaced by
the overlay home; the environment is modelled as a partial map from
variable names to values. -/

/-- The spawnEnv object of executeJob and executeJobDetached: every key of
process.env, with HOME overridden to the overlay home. -/
def executeJobSpawnEnv (procEnv : String → Option String) (overlayHome : String) :
    String → Option String :=
  fun k => if k = "HOME" then some overlayHome else procEnv k

/-- C1 (evaluating the code at the failing input): any credential variable
present in the parent environment, such as ANTHROPIC_API_KEY, is passed
through unchanged to the spawned child; only HOME is rewritten. -/
theorem executeJobSpawnEnv_leaks_credentials (procEnv : String → Option String)
    (overlayHome secret : String)
    (hkey : procEnv "ANTHROPIC_API_KEY" = some secret) :
    executeJobSpawnEnv procEnv overlayHome "ANTHROPIC_API_KEY" = some secret ∧
    executeJobSpawnEnv procEnv overlayHome "AWS_SECRET_ACCESS_KEY" = procEnv "AWS_SECRET_ACCESS_KEY" ∧
    executeJobSpawnEnv procEnv overlayHome "OPENAI_API_KEY" = procEnv "OPENAI_API_KEY" ∧
    executeJobSpawnEnv procEnv overlayHome "SSH_AUTH_SOCK" = procEnv "SSH_AUTH_SOCK" ∧
    executeJobSpawnEnv procEnv overlayHome "HOME" = some overlayHome := by
  refine ⟨?_, ?_, ?_, ?_, ?_⟩
  · rw [← hkey]
    simp [executeJobSpawnEnv]
  · simp [executeJobSpawnEnv]
  · simp [executeJobSpawnEnv]
  · simp [executeJobSpawnEnv]
  · simp [executeJobSpawnEnv]

/-- Witness for C1 at a concrete parent environment holding a secret. -/
theorem executeJobSpawnEnv_leaks_credentials_witness :
    (fun k => if k = "ANTHROPIC_API_KEY" then some "sk-test-secret" else none)
        "ANTHROPIC_API_KEY" = some "sk-test-secret" ∧
    executeJobSpawnEnv
        (fun k => if k = "ANTHROPIC_API_KEY" then some "sk-test-secret" else none)
        "/overlay/home" "ANTHROPIC_API_KEY" = some "sk-test-secret" :=
  ⟨by decide,
    (executeJobSpawnEnv_leaks_credentials
      (fun k => if k = "ANTHROPIC_API_KEY" then some "sk-test-secret" else none)
      "/overlay/home" "sk-test-secret" (by decide)).1⟩

/-! ## writeMeta (src/lib/state.ts)

The filesystem side effects of writeMeta are modelled as a trace of
operations so that the write-temp-and-rename discipline is expressible. -/

/-- A filesystem operation of the state store. -/
inductive FsOp where
  | writeFile (path content : String)
  | rename (src dst : String)
deriving DecidableEq

/-- Path of the Meta document (state.ts META_FILE). -/
def metaFilePath : String := "~/.agents/agents.yaml"

/-- state.ts META_HEADER: the fixed comment prefixed to every Meta write. -/
def metaHeader : String :=
  "# agents-cli metadata\n# Auto-generated - do not edit manually\n# https://github.com/muqsitnawaz/agents-cli\n\n"

/-- state.ts writeMeta: a single direct fs.writeFileSync of the header plus
the yaml serialization of the document (the serializer stays abstract). -/
def writeMetaOps {α : Type} (stringify : α → String) (meta : α) : List FsOp :=
  [FsOp.writeFile metaFilePath (metaHeader ++ stringify meta)]

/-- The discipline the claim describes: some operation writes a temporary
path and a later operation renames that path over the Meta file. -/
def usesTempAndRename (ops : List FsOp) : Prop :=
  ∃ i j tmp content, i < j ∧ tmp ≠ metaFilePath ∧
    ops.get? i = some (FsOp.writeFile tmp content) ∧
    ops.get? j = some (FsOp.rename tmp metaFilePath)

/-- C2 counterexample: writeMeta performs no rename at all, so the claimed
write-temp-then-rename sequence is absent even for the empty document. -/
theorem writeMeta_no_temp_rename :
    ¬ usesTempAndRename (writeMetaOps (fun _ : Unit => "repos:\n") ()) := by
  rintro ⟨i, j, tmp, content, hij, _, _, hj⟩
  have hj1 : j = 0 := by
    cases j with
    | zero => rfl
    | succ n =>
      simp [writeMetaOps, List.get?] at hj
  omega

theorem isPrefixOf_self_append (l r : List Char) : List.isPrefixOf l (l ++ r) = true := by
  induction l with
  | nil => simp [List.isPrefixOf]
  | cons x xs ih => simp [List.isPrefixOf, ih]

/-- C2 (amended): every writeMeta is exactly one direct write of the Meta
file whose content is the fixed header comment followed by the serialized
document; there is no temporary file and no rename. -/
theorem writeMeta_direct_write {α : Type} (stringify : α → String) (meta : α) :
    writeMetaOps stringify meta =
      [FsOp.writeFile metaFilePath (metaHeader ++ stringify meta)] ∧
    (∀ op ∈ writeMetaOps stringify meta, ∀ src dst, op ≠ FsOp.rename src dst) ∧
    jsStartsWith (metaHeader ++ stringify meta) metaHeader = true := by
  refine ⟨rfl, ?_, ?_⟩
  · intro op hop src dst
    simp only [writeMetaOps, List.mem_singleton] at hop
    rw [hop]
    intro h
    cases h
  · unfold jsStartsWith
    rw [stringData_append]
    exact isPrefixOf_self_append metaHeader.data (stringify meta).data

/-! ## Report extraction (src/lib/runner.ts extractReport, agent claude)

A line of the stream is modelled post-JSON-decoding: none stands for a line
that JSON.parse rejects, and a decoded object is restricted to the fields
the claude branch reads (type, message.content with per-block type and
text). -/

/-- One block of an assistant message content array. -/
structure ContentBlock where
  btype : String
  btext : Option String
deriving DecidableEq

/-- One decoded stream line: its type tag and, when present, the content
array of its message field. -/
structure StreamLine where
  ltype : String
  content : Option (List ContentBlock)
deriving DecidableEq

/-- The per-block selector of the claude branch: a block contributes its
text when its type is text and its text is truthy. -/
def blockText (b : ContentBlock) : Option String :=
  match b.btext with
  | some t => if b.btype = "text" ∧ t ≠ "" then some t else none
  | none => none

/-- The inner loop of extractReport for claude over one content array:
every block whose type is text and whose text is truthy overwrites the
accumulator. -/
def lastTextOfBlocks (blocks : List ContentBlock) (acc : String) : String :=
  blocks.foldl
    (fun acc2 b =>
      match b.btext with
      | some t => if b.btype = "text" ∧ t ≠ "" then t else acc2
      | none => acc2)
    acc

/-- The per-line step of the claude branch of extractReport. -/
def claudeLineStep (acc : String) (ol : Option StreamLine) : String :=
  match ol with
  | none => acc
  | some l =>
    if l.ltype = "assistant" then
      match l.content with
      | some blocks => lastTextOfBlocks blocks acc
      | none => acc
    else acc

/-- runner.ts extractReport for agent claude: walk the decoded lines,
skipping undecodable ones, and keep the running last message; an empty final
accumulator yields null. -/
def extractReportClaude (lines : List (Option StreamLine)) : Option String :=
  let lastMessage := lines.foldl claudeLineStep ""
  if lastMessage = "" then none else some lastMessage

/-- The extraction rule as the claim words it: per assistant message,
concatenate the text of all its text blocks, and keep the last such
concatenation across the stream. -/
def extractReportClaudeSpec (lines : List (Option StreamLine)) : Option String :=
  let lastMessage :=
    lines.foldl
      (fun acc ol =>
        match ol with
        | none => acc
        | some l =>
          if l.ltype = "assistant" then
            match l.content with
            | some blocks =>
              let concat := String.join ((blocks.filterMap blockText))
              if concat = "" then acc else concat
            | none => acc
          else acc)
      ""
  if lastMessage = "" then none else some lastMessage

/-- C3 counterexample: a single assistant message holding two text blocks A
and B extracts only B, not the concatenation AB demanded by the claim. -/
theorem extractReportClaude_last_block_only :
    extractReportClaude
        [some (StreamLine.mk "assistant"
          (some [ContentBlock.mk "text" (some "A"), ContentBlock.mk "text" (some "B")]))] =
      some "B" ∧
    extractReportClaudeSpec
        [some (StreamLine.mk "assistant"
          (some [ContentBlock.mk "text" (some "A"), ContentBlock.mk "text" (some "B")]))] =
      some "AB" ∧
    (some "B" : Option String) ≠ some "AB" := by
  refine ⟨by decide, by decide, by decide⟩

/-- The texts of all truthy text blocks of all decoded assistant messages,
in stream order. -/
def claudeTexts (lines : List (Option StreamLine)) : List String :=
  (lines.filterMap id).flatMap
    (fun l =>
      if l.ltype = "assistant" then (l.content.getD []).filterMap blockText
      else [])

theorem getLast?_cons_getD {α : Type} (x acc : α) (l : List α) :
    ((x :: l).getLast?).getD acc = (l.getLast?).getD x := by
  cases l with
  | nil => simp
  | cons y ys =>
    rw [List.getLast?_cons_cons]
    cases h : (y :: ys).getLast? with
    | none => exact absurd h (by simp [List.getLast?_eq_none_iff])
    | some z => simp

theorem getLast?_append_getD {α : Type} (l m : List α) (acc : α) :
    ((l ++ m).getLast?).getD acc = (m.getLast?).getD ((l.getLast?).getD acc) := by
  induction l generalizing acc with
  | nil => simp
  | cons x xs ih =>
    rw [List.cons_append, getLast?_cons_getD, ih x, getLast?_cons_getD]

theorem lastTextOfBlocks_getLast (blocks : List ContentBlock) (acc : String) :
    lastTextOfBlocks blocks acc =
      ((blocks.filterMap blockText).getLast?).getD acc := by
  induction blocks generalizing acc with
  | nil => simp [lastTextOfBlocks]
  | cons b bs ih =>
    unfold lastTextOfBlocks
    rw [List.foldl_cons, List.filterMap_cons]
    cases hb : b.btext with
    | none =>
      simp only [blockText, hb]
      exact ih acc
    | some t =>
      by_cases hc : b.btype = "text" ∧ t ≠ ""
      · simp only [blockText, hb, if_pos hc]
        rw [getLast?_cons_getD]
        exact ih t
      · simp only [blockText, hb, if_neg hc]
        exact ih acc

theorem claudeFoldl_getLast (lines : List (Option StreamLine)) (acc : String) :
    lines.foldl claudeLineStep acc = ((claudeTexts lines).getLast?).getD acc := by
  induction lines generalizing acc with
  | nil => simp [claudeTexts]
  | cons ol rest ih =>
    rw [List.foldl_cons]
    cases ol with
    | none =>
      rw [ih (claudeLineStep acc none)]
      simp [claudeTexts, claudeLineStep]
    | some l =>
      by_cases hl : l.ltype = "assistant"
      · cases hc : l.content with
        | none =>
          rw [ih (claudeLineStep acc (some l))]
          simp [claudeTexts, claudeLineStep, hl, hc]
        | some blocks =>
          rw [ih (claudeLineStep acc (some l))]
          have hstep : claudeLineStep acc (some l) =
              ((blocks.filterMap blockText).getLast?).getD acc := by
            simp only [claudeLineStep, hl, hc, if_true]
            exact lastTextOfBlocks_getLast blocks acc
          rw [hstep]
          have htexts : claudeTexts (some l :: rest) =
              blocks.filterMap blockText ++ claudeTexts rest := by
            simp [claudeTexts, hl, hc]
          rw [htexts, getLast?_append_getD]
      · rw [ih (claudeLineStep acc (some l))]
        simp [claudeTexts, claudeLineStep, hl]

theorem claudeTexts_ne_empty (lines : List (Option StreamLine)) :
    ∀ t ∈ claudeTexts lines, t ≠ "" := by
  intro t ht
  unfold claudeTexts at ht
  rw [List.mem_flatMap] at ht
  obtain ⟨l, _, hmem⟩ := ht
  by_cases hl : l.ltype = "assistant"
  · rw [if_pos hl] at hmem
    rw [List.mem_filterMap] at hmem
    obtain ⟨b, _, hbt⟩ := hmem
    unfold blockText at hbt
    split at hbt
    · rename_i u hu
      by_cases hc : b.btype = "text" ∧ u ≠ ""
      · rw [if_pos hc] at hbt
        cases hbt
        exact hc.2
      · rw [if_neg hc] at hbt
        cases hbt
    · cases hbt
  · rw [if_neg hl] at hmem
    cases hmem

/-- C3 (amended): for agent claude the extracted report is the text of the
last truthy text block across the decoded assistant messages of the stream
(a message with several text blocks contributes only its final block), and
none when no such block exists. -/
theorem extractReportClaude_eq_lastText (lines : List (Option StreamLine)) :
    extractReportClaude lines = (claudeTexts lines).getLast? := by
  unfold extractReportClaude
  rw [claudeFoldl_getLast lines ""]
  cases h : (claudeTexts lines).getLast? with
  | none => simp
  | some t =>
    have htne : t ≠ "" := by
      obtain ⟨ys, hys⟩ := List.getLast?_eq_some_iff.mp h
      exact claudeTexts_ne_empty lines t (by rw [hys]; simp)
    simp [htne]

/-! ## Run meta lifecycle (src/lib/runner.ts executeJob, monitorRunningJobs)

The asynchronous callbacks of executeJob (timeout timer, child exit, child
error) are modelled as an event list folded over the run state; the settled
flag mirrors the guard at the top of every callback. Timestamps are natural
numbers standing for ISO strings produced by a monotone clock. -/

/-- The status field of a RunMeta. -/
inductive RunStatus where
  | running
  | completed
  | failed
  | timeout
deriving DecidableEq

/-- A run meta document, reduced to the fields the claim is about. -/
structure RunMeta where
  pid : Option Nat
  status : RunStatus
  startedAt : Nat
  completedAt : Option Nat
  exitCode : Option Int
deriving DecidableEq

/-- A status outside running is terminal. -/
def terminalStatus (s : RunStatus) : Bool :=
  s = RunStatus.completed || s = RunStatus.failed || s = RunStatus.timeout

/-- The initial meta executeJob writes before and right after spawning:
status running, no completion, no exit code. -/
def initRunMeta (t0 : Nat) (pid : Option Nat) : RunMeta :=
  { pid := pid, status := RunStatus.running, startedAt := t0,
    completedAt := none, exitCode := none }

/-- An asynchronous callback of executeJob, with the time at which it runs. -/
inductive RunEvent where
  | timeoutFire (t : Nat)
  | childExit (code : Option Int) (t : Nat)
  | childError (t : Nat)
deriving DecidableEq

/-- The time at which an event fires. -/
def eventTime : RunEvent → Nat
  | RunEvent.timeoutFire t => t
  | RunEvent.childExit _ t => t
  | RunEvent.childError t => t

/-- The run state of executeJob: the meta plus the settled flag shared by
the three callbacks. -/
structure RunnerState where
  meta : RunMeta
  settled : Bool
deriving DecidableEq

/-- One callback of executeJob: each handler returns immediately when
settled, otherwise sets settled and performs its transition (timeout,
completed or failed on exit code, failed on spawn error). -/
def runStep (s : RunnerState) (e : RunEvent) : RunnerState :=
  if s.settled then s
  else
    match e with
    | RunEvent.timeoutFire t =>
      ⟨{ s.meta with status := RunStatus.timeout, completedAt := some t }, true⟩
    | RunEvent.childExit code t =>
      ⟨{ s.meta with
          exitCode := code,
          status := if code = some 0 then RunStatus.completed else RunStatus.failed,
          completedAt := some t }, true⟩
    | RunEvent.childError t =>
      ⟨{ s.meta with status := RunStatus.failed, completedAt := some t }, true⟩

/-- The run state after executeJob has processed the given events. -/
def runTrace (t0 : Nat) (pid : Option Nat) (events : List RunEvent) : RunnerState :=
  events.foldl runStep ⟨initRunMeta t0 pid, false⟩

/-- monitorRunningJobs on one meta: transition to failed with a completion
timestamp only when the meta is running, has a pid, and the pid is dead. -/
def monitorStep (alive : Bool) (m : RunMeta) (t : Nat) : RunMeta :=
  if ¬ m.status = RunStatus.running then m
  else if m.pid = none then m
  else if alive then m
  else { m with status := RunStatus.failed, completedAt := some t }

/-- The state machine invariant of a run: settled coincides with being
terminal, the start time never changes, and a settled state carries a
completion time bounded below by the start and an exit code that forces
completed when zero. -/
def runInv (t0 : Nat) (s : RunnerState) : Prop :=
  s.meta.startedAt = t0 ∧
  (s.settled = false →
    s.meta.status = RunStatus.running ∧ s.meta.exitCode = none ∧ s.meta.completedAt = none) ∧
  (s.settled = true →
    terminalStatus s.meta.status = true ∧
    (∃ t, s.meta.completedAt = some t ∧ t0 ≤ t) ∧
    (s.meta.exitCode = some 0 → s.meta.status = RunStatus.completed))

theorem runStep_settled (s : RunnerState) (e : RunEvent) (h : s.settled = true) :
    runStep s e = s := by
  simp [runStep, h]

theorem runStep_inv (t0 : Nat) (s : RunnerState) (e : RunEvent)
    (ht : t0 ≤ eventTime e) (hinv : runInv t0 s) : runInv t0 (runStep s e) := by
  obtain ⟨hstart, hrun, hterm⟩ := hinv
  cases hs : s.settled with
  | true =>
    rw [runStep_settled s e hs]
    exact ⟨hstart, hrun, hterm⟩
  | false =>
    obtain ⟨_, hexit, _⟩ := hrun hs
    cases e with
    | timeoutFire t =>
      have hrs : runStep s (RunEvent.timeoutFire t) =
          ⟨{ s.meta with status := RunStatus.timeout, completedAt := some t }, true⟩ := by
        simp [runStep, hs]
      rw [hrs]
      refine ⟨hstart, ?_, ?_⟩
      · intro hc
        exact Bool.noConfusion hc
      · intro _
        refine ⟨rfl, ⟨t, rfl, ht⟩, ?_⟩
        intro hec
        have hc : s.meta.exitCode = some 0 := hec
        rw [hexit] at hc
        cases hc
    | childExit code t =>
      have hrs : runStep s (RunEvent.childExit code t) =
          ⟨{ s.meta with
              exitCode := code,
              status := if code = some 0 then RunStatus.completed else RunStatus.failed,
              completedAt := some t }, true⟩ := by
        simp [runStep, hs]
      rw [hrs]
      refine ⟨hstart, ?_, ?_⟩
      · intro hc
        exact Bool.noConfusion hc
      · intro _
        refine ⟨?_, ⟨t, rfl, ht⟩, ?_⟩
        · show terminalStatus
            (if code = some 0 then RunStatus.completed else RunStatus.failed) = true
          by_cases hc : code = some 0 <;> simp [hc, terminalStatus]
        · intro hec
          have hc : code = some 0 := hec
          show (if code = some 0 then RunStatus.completed else RunStatus.failed) =
            RunStatus.completed
          rw [if_pos hc]
    | childError t =>
      have hrs : runStep s (RunEvent.childError t) =
          ⟨{ s.meta with status := RunStatus.failed, completedAt := some t }, true⟩ := by
        simp [runStep, hs]
      rw [hrs]
      refine ⟨hstart, ?_, ?_⟩
      · intro hc
        exact Bool.noConfusion hc
      · intro _
        refine ⟨rfl, ⟨t, rfl, ht⟩, ?_⟩
        intro hec
        have hc : s.meta.exitCode = some 0 := hec
        rw [hexit] at hc
        cases hc

theorem runFoldl_inv (t0 : Nat) :
    ∀ (events : List RunEvent) (s : RunnerState),
      runInv t0 s → (∀ e ∈ events, t0 ≤ eventTime e) →
      runInv t0 (events.foldl runStep s) := by
  intro events
  induction events with
  | nil =>
    intro s hs _
    exact hs
  | cons e rest ih =>
    intro s hs ht
    rw [List.foldl_cons]
    exact ih _ (runStep_inv t0 s e (ht e (by simp)) hs)
      (fun e2 he2 => ht e2 (by simp [he2]))

theorem runTrace_inv (t0 : Nat) (pid : Option Nat) (events : List RunEvent)
    (ht : ∀ e ∈ events, t0 ≤ eventTime e) : runInv t0 (runTrace t0 pid events) := by
  have hbase : runInv t0 ⟨initRunMeta t0 pid, false⟩ :=
    ⟨rfl, fun _ => ⟨rfl, rfl, rfl⟩, fun hc => by cases hc⟩
  exact runFoldl_inv t0 events _ hbase ht

theorem terminalStatus_iff (s : RunStatus) :
    terminalStatus s = true ↔ ¬ s = RunStatus.running := by
  cases s <;> simp [terminalStatus]

theorem runFoldl_settled (l : List RunEvent) (s : RunnerState) (h : s.settled = true) :
    l.foldl runStep s = s := by
  induction l with
  | nil => rfl
  | cons e rest ih =>
    rw [List.foldl_cons, runStep_settled s e h]
    exact ih

/-- C8: within one job run the meta starts as running, transitions at most
once into a terminal status and is never rewritten afterwards (a late child
exit after a settled timeout changes nothing), a terminal meta carries
completed_at at or after started_at, exit code zero forces status completed,
and monitorRunningJobs leaves every non-running meta untouched. -/
theorem runMeta_monotonic (t0 : Nat) (pid : Option Nat) (events : List RunEvent)
    (ht : ∀ e ∈ events, t0 ≤ eventTime e) :
    (runTrace t0 pid []).meta.status = RunStatus.running ∧
    (∀ n m, n ≤ m →
      terminalStatus ((runTrace t0 pid (events.take n)).meta.status) = true →
      runTrace t0 pid (events.take m) = runTrace t0 pid (events.take n)) ∧
    (terminalStatus ((runTrace t0 pid events).meta.status) = true →
      ∃ t, (runTrace t0 pid events).meta.completedAt = some t ∧
        (runTrace t0 pid events).meta.startedAt ≤ t) ∧
    ((runTrace t0 pid events).meta.exitCode = some 0 →
      (runTrace t0 pid events).meta.status = RunStatus.completed) ∧
    (∀ (alive : Bool) (m : RunMeta) (t : Nat),
      ¬ m.status = RunStatus.running → monitorStep alive m t = m) := by
  have hinv : runInv t0 (runTrace t0 pid events) :=
    runTrace_inv t0 pid events ht
  have hinvTake : ∀ n, runInv t0 (runTrace t0 pid (events.take n)) := by
    intro n
    exact runTrace_inv t0 pid (events.take n)
      (fun e he => ht e (List.mem_of_mem_take he))
  have hsettled : ∀ (st : RunnerState), runInv t0 st →
      terminalStatus st.meta.status = true → st.settled = true := by
    intro st hstinv hstterm
    cases hss : st.settled with
    | true => rfl
    | false =>
      have hrun := (hstinv.2.1 hss).1
      rw [terminalStatus_iff] at hstterm
      exact absurd hrun hstterm
  refine ⟨rfl, ?_, ?_, ?_, ?_⟩
  · intro n m hnm hterm
    have hs := hsettled _ (hinvTake n) hterm
    have hsplit : events.take m = events.take n ++ ((events.drop n).take (m - n)) := by
      rw [← List.take_add]
      congr 1
      omega
    unfold runTrace at *
    rw [hsplit, List.foldl_append]
    exact runFoldl_settled _ _ hs
  · intro hterm
    have hs := hsettled _ hinv hterm
    obtain ⟨hstart, _, hdone⟩ := hinv
    obtain ⟨_, ⟨t, hct, htt⟩, _⟩ := hdone hs
    exact ⟨t, hct, by rw [hstart]; exact htt⟩
  · intro hec
    obtain ⟨_, hrunning, hdone⟩ := hinv
    cases hss : (runTrace t0 pid events).settled with
    | false =>
      have := (hrunning hss).2.1
      rw [this] at hec
      cases hec
    | true => exact (hdone hss).2.2 hec
  · intro alive m t hm
    simp [monitorStep, hm]

/-- Witness for C8 at a concrete run: spawn at time 10, clean exit at 20. -/
theorem runMeta_monotonic_witness :
    (∀ e ∈ [RunEvent.childExit (some 0) 20], 10 ≤ eventTime e) ∧
    ((runTrace 10 (some 42) ([] : List RunEvent)).meta.status = RunStatus.running ∧
      (∀ n m, n ≤ m →
        terminalStatus ((runTrace 10 (some 42)
          (([RunEvent.childExit (some 0) 20]).take n)).meta.status) = true →
        runTrace 10 (some 42) (([RunEvent.childExit (some 0) 20]).take m) =
          runTrace 10 (some 42) (([RunEvent.childExit (some 0) 20]).take n)) ∧
      (terminalStatus ((runTrace 10 (some 42)
          [RunEvent.childExit (some 0) 20]).meta.status) = true →
        ∃ t, (runTrace 10 (some 42)
            [RunEvent.childExit (some 0) 20]).meta.completedAt = some t ∧
          (runTrace 10 (some 42)
            [RunEvent.childExit (some 0) 20]).meta.startedAt ≤ t) ∧
      ((runTrace 10 (some 42) [RunEvent.childExit (some 0) 20]).meta.exitCode = some 0 →
        (runTrace 10 (some 42) [RunEvent.childExit (some 0) 20]).meta.status =
          RunStatus.completed) ∧
      (∀ (alive : Bool) (m : RunMeta) (t : Nat),
        ¬ m.status = RunStatus.running → monitorStep alive m t = m)) :=
  ⟨by decide, runMeta_monotonic 10 (some 42) [RunEvent.childExit (some 0) 20] (by decide)⟩

/-! ## Repo source parsing (src/lib/git.ts parseSource)

fs.existsSync and path.resolve are passed in as abstract functions; the
rest of parseSource is embedded branch by branch. -/

/-- A parsed repo source. -/
structure GitSource where
  gtype : String
  url : String
  ref : Option String
deriving DecidableEq

/-- JavaScript s.lastIndexOf(c), as an optional index. -/
def lastIndexOfChar (c : Char) : List Char → Option Nat
  | [] => none
  | x :: xs =>
    match lastIndexOfChar c xs with
    | some i => some (i + 1)
    | none => if x = c then some 0 else none

/-- The at-ref suffix splitting at the top of parseSource: split at the last
at sign when it is not position zero, the source is not an ssh url, the
prefix holds no scheme separator, and the suffix is a plausible ref. -/
def refSplit (source : String) : Option String × String :=
  match lastIndexOfChar '@' source.data with
  | some i =>
    if 0 < i ∧ ¬ jsStartsWith source "git@" ∧
        ¬ jsIncludes (String.mk (source.data.take i)) "://" then
      let possibleRef := String.mk (source.data.drop (i + 1))
      if possibleRef ≠ "" ∧ ¬ possibleRef.data.contains '/' ∧
          ¬ possibleRef.data.contains ':' then
        (some possibleRef, String.mk (source.data.take i))
      else (none, source)
    else (none, source)
  | none => (none, source)

/-- The replace(.git suffix) used throughout parseSource. -/
def stripGitSuffix (s : String) : String :=
  if jsEndsWith s ".git" then jsDropRight s 4 else s

/-- The capture group of the github https regex: owner slash name, name
nonempty without slashes, an optional final .git not counted into the
group. -/
def githubUrlCapture (s : String) : Option String :=
  let rest? :=
    if jsStartsWith s "https://github.com/" then some (jsDrop s 19)
    else if jsStartsWith s "http://github.com/" then some (jsDrop s 18)
    else none
  match rest? with
  | none => none
  | some rest =>
    match splitOnChar '/' rest.data with
    | [owner, name] =>
      if owner ≠ [] ∧ name ≠ [] then
        let name2 :=
          if jsEndsWith (String.mk name) ".git" ∧ 4 < name.length then
            jsDropRight (String.mk name) 4
          else String.mk name
        some (String.mk owner ++ "/" ++ name2)
      else none
    | _ => none

/-- The github-variant result shared by the shorthand branches. -/
def githubSource (repo : String) (ref : Option String) : GitSource :=
  ⟨"github", "https://github.com/" ++ repo ++ ".git", some (ref.getD "main")⟩

/-- Character class of the owner part of the final owner/repo regex. -/
def isOwnerChar (c : Char) : Bool := c.isAlphanum || c = '_' || c = '-'

/-- Character class of the repo part of the final owner/repo regex. -/
def isRepoChar (c : Char) : Bool := c.isAlphanum || c = '_' || c = '.' || c = '-'

/-- The final owner/repo regex of parseSource. -/
def bareOwnerRepoMatch (s : String) : Bool :=
  match splitOnChar '/' s.data with
  | [owner, name] =>
    owner ≠ [] && name ≠ [] && owner.all isOwnerChar && name.all isRepoChar
  | _ => false

/-- The branch chain of parseSource after the ref split. -/
def parseSourceClean (fsExists : String → Bool) (resolve : String → String)
    (ref : Option String) (cleanSource : String) : Option GitSource :=
  if jsStartsWith cleanSource "gh:" then
    some (githubSource (stripGitSuffix (jsDrop cleanSource 3)) ref)
  else if jsStartsWith cleanSource "git@github.com:" then
    some (githubSource (stripGitSuffix (jsDrop cleanSource 15)) ref)
  else if jsStartsWith cleanSource "github.com:" then
    some (githubSource (stripGitSuffix (jsDrop cleanSource 11)) ref)
  else if jsStartsWith cleanSource "github.com/" then
    some (githubSource (stripGitSuffix (jsDrop cleanSource 11)) ref)
  else if jsStartsWith cleanSource "http://" || jsStartsWith cleanSource "https://" then
    match githubUrlCapture cleanSource with
    | some repo => some (githubSource repo ref)
    | none =>
      some ⟨"url",
        if jsEndsWith cleanSource ".git" then cleanSource else cleanSource ++ ".git", ref⟩
  else if (jsStartsWith cleanSource "/" || jsStartsWith cleanSource "./" ||
      jsStartsWith cleanSource "../") && fsExists cleanSource then
    some ⟨"local", resolve cleanSource, none⟩
  else if fsExists cleanSource then
    some ⟨"local", resolve cleanSource, none⟩
  else if cleanSource.data.contains '/' ∧ ¬ cleanSource.data.contains ':' ∧
      ¬ cleanSource.data.contains '.' then
    some (githubSource (stripGitSuffix cleanSource) ref)
  else if bareOwnerRepoMatch cleanSource then
    some (githubSource (stripGitSuffix cleanSource) ref)
  else none

/-- git.ts parseSource: split the ref suffix and run the branch chain. -/
def parseSource (fsExists : String → Bool) (resolve : String → String)
    (source : String) : Option GitSource :=
  parseSourceClean fsExists resolve (refSplit source).1 (refSplit source).2

/-- C6: the five github spellings all normalize to the canonical clone url
with ref main (dev for the explicit at-ref), and an existing relative path
parses to the local variant resolved to an absolute path. -/
theorem parseSource_scenarios (fsExists : String → Bool) (resolve : String → String) :
    parseSource fsExists resolve "gh:alice/cfg" =
      some ⟨"github", "https://github.com/alice/cfg.git", some "main"⟩ ∧
    parseSource fsExists resolve "gh:alice/cfg@dev" =
      some ⟨"github", "https://github.com/alice/cfg.git", some "dev"⟩ ∧
    parseSource fsExists resolve "git@github.com:alice/cfg.git" =
      some ⟨"github", "https://github.com/alice/cfg.git", some "main"⟩ ∧
    parseSource fsExists resolve "github.com/alice/cfg" =
      some ⟨"github", "https://github.com/alice/cfg.git", some "main"⟩ ∧
    parseSource fsExists resolve "https://github.com/alice/cfg.git" =
      some ⟨"github", "https://github.com/alice/cfg.git", some "main"⟩ ∧
    (fsExists "./local" = true →
      parseSource fsExists resolve "./local" =
        some ⟨"local", resolve "./local", none⟩) := by
  refine ⟨rfl, rfl, rfl, rfl, rfl, ?_⟩
  intro h
  simp [parseSource, parseSourceClean, refSplit, lastIndexOfChar, h]
  rfl

/-- Witness for C6 with a filesystem on which ./local exists. -/
theorem parseSource_scenarios_witness :
    (fun p => p = "./local") "./local" = true ∧
    parseSource (fun p => p = "./local") (fun _ => "/abs/local") "./local" =
      some ⟨"local", (fun _ : String => "/abs/local") "./local", none⟩ :=
  ⟨by decide,
    (parseSource_scenarios (fun p => p = "./local") (fun _ => "/abs/local")).2.2.2.2.2
      (by decide)⟩
